import Mathlib

/-!
Shallow embedding of the async task scheduler crates.

Source layout:
- src/crates/task/src/keyboard.rs : process-wide scancode byte queue
  (a crossbeam ArrayQueue inside a OnceCell), a single-slot AtomicWaker,
  the producer entry point add_scancode, and the ScancodeStream whose
  poll_next implements the register-then-recheck protocol.
- src/crates/task/src/executor.rs : SimpleExecutor (FIFO of tasks polled
  with an inert dummy waker), Executor (BTreeMap of live tasks, bounded
  ArrayQueue of ready TaskIds, BTreeMap waker cache), and TaskWaker.

Modelling conventions:
- Machine integers (u8 scancodes, u64 task ids) are Nat; none of the
  verified behaviour depends on wraparound.
- A crossbeam ArrayQueue of capacity c is a List with push refused
  (Option none) once the length reaches c; pop takes the head.
- A BTreeMap is an association list with unique keys.
- A Rust panic (expect or an explicit abort) is modelled as the Option
  none result of the operation.
- The Task wrapper and TaskId live in the crate root, which is not part
  of the sources; following the spec, a task id is a Nat and a task is an
  opaque suspendable computation advanced one step per poll.
-/

/-- Capacity of the scancode byte queue: ArrayQueue.new(100) in
ScancodeStream::new. -/
def scancodeQueueCapacity : Nat := 100

/-- Capacity of the ready queue of task ids: ArrayQueue.new(100) in
Executor::new. -/
def readyQueueCapacity : Nat := 100

/-- Push of a bounded crossbeam ArrayQueue with capacity cap: appends at
the back, returns none (the Err case of ArrayQueue.push) when the queue
is full. -/
def aqPush (cap : Nat) (q : List Nat) (x : Nat) : Option (List Nat) :=
  if q.length < cap then some (q ++ [x]) else none

/-- Pop of a bounded crossbeam ArrayQueue: takes the front element. -/
def aqPop (q : List Nat) : Option (Nat × List Nat) :=
  match q with
  | [] => none
  | x :: xs => some (x, xs)

/-- State of the keyboard module: the OnceCell SCANCODE_QUEUE (none while
uninitialised) and the AtomicWaker slot WAKER (the registered consumer
waker, abstracted to a numeric identity). -/
structure KState where
  queue : Option (List Nat)
  waker : Option Nat
  deriving DecidableEq, Repr

/-- Diagnostics emitted by add_scancode via println. -/
inductive KDiag where
  | queueFull
  | uninit
  deriving DecidableEq, Repr

/-- Result of the producer entry point: the new module state, the
diagnostic emitted (if any), and the waker that was fired (if any). -/
structure AddResult where
  state : KState
  diag : Option KDiag
  woken : Option Nat
  deriving DecidableEq, Repr

/-- The producer entry point add_scancode in keyboard.rs: if the
OnceCell holds the queue, try to push the byte; on success fire the
registered waker (AtomicWaker.wake takes the stored waker and invokes
it), on a full queue emit a diagnostic and drop the byte; if the queue
is uninitialised emit a diagnostic and drop the byte. -/
def add_scancode (s : KState) (b : Nat) : AddResult :=
  match s.queue with
  | some q =>
    match aqPush scancodeQueueCapacity q b with
    | some q' => ⟨⟨some q', none⟩, none, s.waker⟩
    | none => ⟨s, some .queueFull, none⟩
  | none => ⟨s, some .uninit, none⟩

/-- ScancodeStream::new: try_init_once of the OnceCell with a fresh
ArrayQueue of capacity 100, with expect turning a second initialisation
into an abort (modelled as none). -/
def ScancodeStream.new (s : KState) : Option KState :=
  match s.queue with
  | none => some ⟨some [], s.waker⟩
  | some _ => none

/-- Producer interference: bytes pushed by the interrupt context through
add_scancode, interleaved inside a poll of the stream. -/
def interfere (s : KState) (mid : List Nat) : KState :=
  mid.foldl (fun t b => (add_scancode t b).state) s

/-- Result alternatives of Stream::poll_next (the stream never yields
the end-of-stream marker, so Ready always carries a byte). -/
inductive PollRes where
  | ready (b : Nat)
  | pending
  deriving DecidableEq, Repr

/-- ScancodeStream::poll_next in keyboard.rs. The OnceCell is read with
expect (abort, modelled none, when uninitialised). First pop: on a byte,
return Ready without touching the waker slot. Otherwise register the
context waker cw in the AtomicWaker (overwriting the slot), after which
the producer may run (the mid bytes), then pop again: on a byte, take
the waker slot and return Ready; otherwise return Pending leaving the
slot as registration left it. -/
def poll_next (s : KState) (cw : Nat) (mid : List Nat) :
    Option (PollRes × KState) :=
  match s.queue with
  | none => none
  | some q =>
    match aqPop q with
    | some (b, q') => some (.ready b, ⟨some q', s.waker⟩)
    | none =>
      let s1 := interfere ⟨some q, some cw⟩ mid
      match s1.queue with
      | some (b :: rest) => some (.ready b, ⟨some rest, none⟩)
      | _ => some (.pending, s1)

/-- Lookup in an association list keyed by Nat (BTreeMap.get). -/
def lookupA {α : Type} (m : List (Nat × α)) (k : Nat) : Option α :=
  match m with
  | [] => none
  | (k2, v) :: rest => if k2 = k then some v else lookupA rest k

/-- Insert into an association list (BTreeMap.insert): replaces the
binding in place when the key is present, otherwise appends it. -/
def insertA {α : Type} (m : List (Nat × α)) (k : Nat) (v : α) :
    List (Nat × α) :=
  match m with
  | [] => [(k, v)]
  | (k2, v2) :: rest =>
    if k2 = k then (k, v) :: rest else (k2, v2) :: insertA rest k v

/-- Remove a key from an association list (BTreeMap.remove). -/
def eraseA {α : Type} (m : List (Nat × α)) (k : Nat) : List (Nat × α) :=
  match m with
  | [] => []
  | (k2, v) :: rest => if k2 = k then rest else (k2, v) :: eraseA rest k

/-- Key set of an association list. -/
def keysA {α : Type} (m : List (Nat × α)) : List Nat :=
  m.map Prod.fst

/-- A Waker value: either the inert dummy waker built over a null data
pointer by dummy_raw_waker, or a TaskWaker bound to one TaskId and the
shared ready queue. -/
inductive WakerM where
  | dummy
  | taskWaker (id : Nat)
  deriving DecidableEq, Repr

/-- Data pointer of dummy_raw_waker: the null pointer. -/
def dummyRawWakerData : Nat := 0

/-- TaskWaker::wake_task: push the bound task id into the shared ready
queue, with expect turning a full queue into an abort (none). -/
def wake_task (q : List Nat) (id : Nat) : Option (List Nat) :=
  aqPush readyQueueCapacity q id

/-- Wake::wake for TaskWaker delegates to wake_task. -/
def TaskWaker.wake (q : List Nat) (id : Nat) : Option (List Nat) :=
  wake_task q id

/-- Wake::wake_by_ref for TaskWaker delegates to wake_task. -/
def TaskWaker.wakeByRef (q : List Nat) (id : Nat) : Option (List Nat) :=
  wake_task q id

/-- Effect of invoking a waker on the executor's ready queue: the dummy
waker's wake is a no-op; a TaskWaker runs wake_task. -/
def wakeEffect (w : WakerM) (q : List Nat) : Option (List Nat) :=
  match w with
  | .dummy => some q
  | .taskWaker id => wake_task q id

/-- Modelled from the spec: the Task wrapper of the crate root (not
among the sources). A task owns a private suspension state, advanced one
step per poll; a poll receives the context's waker and yields whether
the computation completed, the successor state, and the wakers the
computation invoked during this poll. -/
structure TaskM where
  state : Nat
  step : WakerM → Nat → Bool × Nat × List WakerM

/-- Task::poll: advance the computation exactly one step under the
context built from the given waker. -/
def TaskM.poll (t : TaskM) (w : WakerM) : Bool × Nat × List WakerM :=
  t.step w t.state

/-- State of the ready-queue Executor: the map of live tasks keyed by
TaskId, the bounded shared ready queue of TaskIds, and the waker cache. -/
structure EState where
  tasks : List (Nat × TaskM)
  task_queue : List Nat
  waker_cache : List (Nat × WakerM)

/-- Executor::new: empty task map, empty ready queue of capacity 100,
empty waker cache. -/
def Executor.new : EState := ⟨[], [], []⟩

/-- Executor::spawn: insert the task into the task map, aborting (none)
when the id is already bound, then push its id onto the ready queue,
aborting when the queue is full. -/
def Executor.spawn (E : EState) (id : Nat) (t : TaskM) : Option EState :=
  if (lookupA E.tasks id).isSome then none
  else
    match aqPush readyQueueCapacity E.task_queue id with
    | none => none
    | some q' => some ⟨insertA E.tasks id t, q', E.waker_cache⟩

/-- Apply the wakes a poll performed to the shared ready queue, in
order; any push against a full queue is the fatal expect inside
wake_task (none). -/
def applyWakes (q : List Nat) (ws : List WakerM) : Option (List Nat) :=
  match ws with
  | [] => some q
  | w :: rest =>
    match wakeEffect w q with
    | none => none
    | some q' => applyWakes q' rest

/-- Outcome of the drain loop of Executor::run_ready_tasks: the loop may
exhaust its fuel (it is re-entered forever by Executor::run), abort on a
ready-queue overflow inside a wake, or finish the pass; the finished
pass carries the final state together with the instrumentation lists of
the ids popped from the ready queue and the ids whose task was polled,
in order. -/
inductive DrainOut where
  | fuelOut
  | aborted
  | done (E : EState) (popped : List Nat) (polled : List Nat)

/-- Outcome of one iteration of the drain loop body. -/
inductive StepOut where
  | empty
  | skip (E1 : EState) (id : Nat)
  | polled (E1 : EState) (id : Nat)
  | aborted

/-- One iteration of the loop body of Executor::run_ready_tasks: pop
the next ready id (empty when the loop exits). A popped id with no live
task is skipped, leaving the task map and waker cache untouched.
Otherwise the waker is fetched from the cache or created as
TaskWaker::new(id, queue) and cached, the task is polled with a context
built from it, the wakes the poll made are applied to the shared queue
(aborted on overflow), and on completion the task and its cached waker
are removed while on pending the advanced task is stored back. -/
def drainStep (E : EState) : StepOut :=
  match E.task_queue with
  | [] => .empty
  | id :: rest =>
    match lookupA E.tasks id with
    | none => .skip ⟨E.tasks, rest, E.waker_cache⟩ id
    | some t =>
      let w := (lookupA E.waker_cache id).getD (WakerM.taskWaker id)
      let cache :=
        if (lookupA E.waker_cache id).isSome then E.waker_cache
        else insertA E.waker_cache id (WakerM.taskWaker id)
      match t.poll w with
      | (ready, st, wakes) =>
        match applyWakes rest wakes with
        | none => .aborted
        | some q' =>
          .polled
            (if ready then ⟨eraseA E.tasks id, q', eraseA cache id⟩
             else ⟨insertA E.tasks id ⟨st, t.step⟩, q', cache⟩) id

/-- Executor::run_ready_tasks: iterate the loop body until the ready
queue is empty. The popped and polled instrumentation lists record the
ids the loop dequeued and the ids whose task it polled, in order; they
do not influence the state. -/
def run_ready_tasks (fuel : Nat) (E : EState) : DrainOut :=
  match fuel with
  | 0 => .fuelOut
  | fuel + 1 =>
    match drainStep E with
    | .empty => .done E [] []
    | .aborted => .aborted
    | .skip E1 id =>
      match run_ready_tasks fuel E1 with
      | .done E' pop pol => .done E' (id :: pop) pol
      | r => r
    | .polled E1 id =>
      match run_ready_tasks fuel E1 with
      | .done E' pop pol => .done E' (id :: pop) (id :: pol)
      | r => r

/-- SimpleExecutor::run: repeatedly pop the head task of the FIFO
task_queue, poll it with a context over the dummy waker, drop it when
the poll reports completion and push it back at the tail when it
reports pending; the loop ends when the queue is empty. Fuel bounds the
number of iterations (the loop need not terminate); some is the list
the loop ends with. -/
def SimpleExecutor.run (fuel : Nat) (ts : List TaskM) :
    Option (List TaskM) :=
  match fuel with
  | 0 => none
  | fuel + 1 =>
    match ts with
    | [] => some []
    | t :: rest =>
      match t.poll .dummy with
      | (ready, st, _) =>
        if ready then SimpleExecutor.run fuel rest
        else SimpleExecutor.run fuel (rest ++ [⟨st, t.step⟩])

/-- The waker-cache invariant of the ready-queue Executor: keys of the
task map and of the waker cache are duplicate-free (so the cache holds
at most one entry per task) and every cached id belongs to a live task. -/
def cacheInv (E : EState) : Prop :=
  (keysA E.tasks).Nodup ∧ (keysA E.waker_cache).Nodup ∧
  ∀ id ∈ keysA E.waker_cache, id ∈ keysA E.tasks

/-- A sample task that completes on its first poll, for concrete runs. -/
def sampleTask : TaskM := ⟨0, fun _ st => (true, st, [])⟩

/-- A sample executor state holding the single live task sampleTask
under id 1, already marked ready. -/
def sampleE : EState := ⟨[(1, sampleTask)], [1], []⟩

/-! Helper lemmas about the association-list model of BTreeMap. -/

theorem keysA_nil {α : Type} : keysA ([] : List (Nat × α)) = [] := rfl

theorem keysA_cons {α : Type} (k : Nat) (v : α) (rest : List (Nat × α)) :
    keysA ((k, v) :: rest) = k :: keysA rest := rfl

theorem lookupA_isSome_iff {α : Type} (m : List (Nat × α)) (k : Nat) :
    (lookupA m k).isSome ↔ k ∈ keysA m := by
  induction m with
  | nil => simp [lookupA, keysA_nil]
  | cons p rest ih =>
    obtain ⟨k2, v⟩ := p
    rw [keysA_cons]
    by_cases h : k2 = k
    · simp [lookupA, h]
    · have h' : ¬ k = k2 := fun hh => h hh.symm
      simp [lookupA, h, h', ih]

theorem lookupA_insertA {α : Type} (m : List (Nat × α)) (k j : Nat)
    (v : α) :
    lookupA (insertA m k v) j = if k = j then some v else lookupA m j := by
  induction m with
  | nil => simp [insertA, lookupA]
  | cons p rest ih =>
    obtain ⟨k2, v2⟩ := p
    by_cases h : k2 = k
    · subst h
      by_cases hj : k2 = j <;> simp [insertA, lookupA, hj]
    · by_cases hj : k2 = j
      · subst hj
        have hkj : ¬ k = k2 := fun hh => h hh.symm
        simp [insertA, lookupA, h, hkj]
      · simp [insertA, lookupA, h, hj, ih]

theorem mem_keysA_insertA {α : Type} (m : List (Nat × α)) (k j : Nat)
    (v : α) :
    j ∈ keysA (insertA m k v) ↔ j ∈ keysA m ∨ j = k := by
  induction m with
  | nil => simp [insertA, keysA_nil, keysA_cons]
  | cons p rest ih =>
    obtain ⟨k2, v2⟩ := p
    by_cases h : k2 = k
    · subst h
      rw [insertA, if_pos rfl, keysA_cons, keysA_cons]
      simp only [List.mem_cons]
      tauto
    · rw [insertA, if_neg h, keysA_cons, keysA_cons]
      simp only [List.mem_cons, ih]
      tauto

theorem nodup_keysA_insertA {α : Type} (m : List (Nat × α)) (k : Nat)
    (v : α) (h : (keysA m).Nodup) : (keysA (insertA m k v)).Nodup := by
  induction m with
  | nil => simp [insertA, keysA_cons, keysA_nil]
  | cons p rest ih =>
    obtain ⟨k2, v2⟩ := p
    rw [keysA_cons, List.nodup_cons] at h
    obtain ⟨hk2, hrest⟩ := h
    by_cases hkk : k2 = k
    · subst hkk
      rw [insertA, if_pos rfl, keysA_cons, List.nodup_cons]
      exact ⟨hk2, hrest⟩
    · rw [insertA, if_neg hkk, keysA_cons, List.nodup_cons]
      refine ⟨?_, ih hrest⟩
      intro hcon
      rcases (mem_keysA_insertA rest k k2 v).mp hcon with h1 | h1
      · exact hk2 h1
      · exact hkk h1

theorem mem_keysA_eraseA {α : Type} (m : List (Nat × α)) (k j : Nat)
    (h : (keysA m).Nodup) :
    j ∈ keysA (eraseA m k) ↔ j ∈ keysA m ∧ j ≠ k := by
  induction m with
  | nil => simp [eraseA, keysA_nil]
  | cons p rest ih =>
    obtain ⟨k2, v2⟩ := p
    rw [keysA_cons, List.nodup_cons] at h
    obtain ⟨hk2, hrest⟩ := h
    by_cases hkk : k2 = k
    · subst hkk
      rw [eraseA, if_pos rfl, keysA_cons]
      constructor
      · intro hm
        refine ⟨List.mem_cons_of_mem _ hm, ?_⟩
        intro hj
        rw [hj] at hm
        exact hk2 hm
      · rintro ⟨hm, hne⟩
        rcases List.mem_cons.mp hm with h1 | h1
        · exact absurd h1 hne
        · exact h1
    · rw [eraseA, if_neg hkk, keysA_cons, keysA_cons]
      simp only [List.mem_cons, ih hrest]
      have hj2 : j = k2 → j ≠ k := fun hj => hj ▸ hkk
      tauto

theorem nodup_keysA_eraseA {α : Type} (m : List (Nat × α)) (k : Nat)
    (h : (keysA m).Nodup) : (keysA (eraseA m k)).Nodup := by
  induction m with
  | nil => simp [eraseA, keysA_nil]
  | cons p rest ih =>
    obtain ⟨k2, v2⟩ := p
    rw [keysA_cons, List.nodup_cons] at h
    obtain ⟨hk2, hrest⟩ := h
    by_cases hkk : k2 = k
    · rw [eraseA, if_pos hkk]
      exact hrest
    · rw [eraseA, if_neg hkk, keysA_cons, List.nodup_cons]
      refine ⟨?_, ih hrest⟩
      intro hcon
      exact hk2 ((mem_keysA_eraseA rest k k2 hrest).mp hcon).1

theorem lookupA_eraseA_of_ne {α : Type} (m : List (Nat × α)) (k j : Nat)
    (hne : j ≠ k) : lookupA (eraseA m k) j = lookupA m j := by
  induction m with
  | nil => simp [eraseA]
  | cons p rest ih =>
    obtain ⟨k2, v2⟩ := p
    by_cases hkk : k2 = k
    · subst hkk
      have h2 : ¬ k2 = j := fun hh => hne hh.symm
      simp [eraseA, lookupA, h2]
    · by_cases hj : k2 = j
      · subst hj
        simp [eraseA, lookupA, hkk]
      · simp [eraseA, lookupA, hkk, hj, ih]

/-! Helper lemmas about the bounded queue, producer interference and
the wake application. -/

theorem aqPush_eq_some_iff (cap : Nat) (q : List Nat) (x : Nat) :
    (∃ q', aqPush cap q x = some q') ↔ q.length < cap := by
  by_cases h : q.length < cap <;> simp [aqPush, h]

theorem aqPush_some_shape (cap : Nat) (q : List Nat) (x : Nat)
    (q' : List Nat) (h : aqPush cap q x = some q') : q' = q ++ [x] := by
  by_cases hl : q.length < cap
  · simpa [aqPush, hl] using h.symm
  · simp [aqPush, hl] at h

theorem add_scancode_queue_mono (s : KState) (b : Nat) (q : List Nat)
    (h : s.queue = some q) :
    ∃ q2, ((add_scancode s b).state).queue = some q2 ∧
      q.length ≤ q2.length := by
  by_cases hlen : q.length < scancodeQueueCapacity
  · refine ⟨q ++ [b], ?_, by simp⟩
    simp [add_scancode, h, aqPush, hlen]
  · refine ⟨q, ?_, le_rfl⟩
    simp [add_scancode, h, aqPush, hlen]

theorem interfere_queue_mono (mid : List Nat) : ∀ s q, s.queue = some q →
    ∃ q2, (interfere s mid).queue = some q2 ∧ q.length ≤ q2.length := by
  induction mid with
  | nil => exact fun s q h => ⟨q, h, le_rfl⟩
  | cons b rest ih =>
    intro s q h
    obtain ⟨q1, h1, hl1⟩ := add_scancode_queue_mono s b q h
    obtain ⟨q2, h2, hl2⟩ := ih (add_scancode s b).state q1 h1
    exact ⟨q2, h2, le_trans hl1 hl2⟩

theorem interfere_of_empty_eq_nil (w : Option Nat) (mid : List Nat)
    (h : (interfere ⟨some [], w⟩ mid).queue = some []) : mid = [] := by
  cases mid with
  | nil => rfl
  | cons b rest =>
    exfalso
    have hstep : (add_scancode ⟨some [], w⟩ b).state = ⟨some [b], none⟩ := by
      simp [add_scancode, aqPush, scancodeQueueCapacity]
    have heq : interfere ⟨some [], w⟩ (b :: rest) =
        interfere ⟨some [b], none⟩ rest := by
      show interfere (add_scancode ⟨some [], w⟩ b).state rest = _
      rw [hstep]
    rw [heq] at h
    obtain ⟨q2, h2, hl⟩ :=
      interfere_queue_mono rest ⟨some [b], none⟩ [b] rfl
    rw [h2] at h
    injection h with h
    subst h
    simp at hl

theorem applyWakes_mem (ws : List WakerM) : ∀ q q',
    applyWakes q ws = some q' → ∀ x ∈ q, x ∈ q' := by
  induction ws with
  | nil =>
    intro q q' h x hx
    simp [applyWakes] at h
    subst h
    exact hx
  | cons w rest ih =>
    intro q q' h x hx
    rw [applyWakes] at h
    cases hw : wakeEffect w q with
    | none => rw [hw] at h; simp at h
    | some q1 =>
      rw [hw] at h
      refine ih q1 q' h x ?_
      cases w with
      | dummy =>
        have : q = q1 := by simpa [wakeEffect] using hw
        rw [← this]
        exact hx
      | taskWaker id =>
        have : q1 = q ++ [id] :=
          aqPush_some_shape readyQueueCapacity q id q1 (by simpa [wakeEffect, wake_task] using hw)
        rw [this]
        exact List.mem_append_left _ hx

/-! Helper lemmas about the drain loop body. -/

theorem drainStep_empty_iff (E : EState) :
    drainStep E = .empty ↔ E.task_queue = [] := by
  constructor
  · intro h
    cases hq : E.task_queue with
    | nil => rfl
    | cons id rest =>
      exfalso
      simp only [drainStep, hq] at h
      cases hl : lookupA E.tasks id with
      | none => simp only [hl] at h; simp at h
      | some t =>
        simp only [hl] at h
        rcases hp : t.poll ((lookupA E.waker_cache id).getD (WakerM.taskWaker id)) with ⟨ready, st, wakes⟩
        simp only [hp] at h
        cases ha : applyWakes rest wakes with
        | none => simp only [ha] at h; simp at h
        | some q' => simp only [ha] at h; simp at h
  · intro h
    simp [drainStep, h]

theorem drainStep_skip_spec (E E1 : EState) (id : Nat)
    (h : drainStep E = .skip E1 id) :
    E.task_queue = id :: E1.task_queue ∧ E1.tasks = E.tasks ∧
    E1.waker_cache = E.waker_cache ∧ lookupA E.tasks id = none := by
  cases hq : E.task_queue with
  | nil => simp only [drainStep, hq] at h; simp at h
  | cons id0 rest =>
    simp only [drainStep, hq] at h
    cases hl : lookupA E.tasks id0 with
    | none =>
      simp only [hl] at h
      injection h with h1 h2
      subst h2
      rw [← h1]
      exact ⟨rfl, rfl, rfl, hl⟩
    | some t =>
      exfalso
      simp only [hl] at h
      rcases hp : t.poll ((lookupA E.waker_cache id0).getD (WakerM.taskWaker id0)) with ⟨ready, st, wakes⟩
      simp only [hp] at h
      cases ha : applyWakes rest wakes with
      | none => simp only [ha] at h; simp at h
      | some q' => simp only [ha] at h; simp at h

theorem drainStep_polled_shape (E E1 : EState) (id : Nat)
    (h : drainStep E = .polled E1 id) :
    ∃ rest t ready st wakes q',
      E.task_queue = id :: rest ∧ lookupA E.tasks id = some t ∧
      t.poll ((lookupA E.waker_cache id).getD (WakerM.taskWaker id)) =
        (ready, st, wakes) ∧
      applyWakes rest wakes = some q' ∧
      E1 =
        (if ready then
          ⟨eraseA E.tasks id, q',
           eraseA (if (lookupA E.waker_cache id).isSome then E.waker_cache
                   else insertA E.waker_cache id (WakerM.taskWaker id)) id⟩
         else
          ⟨insertA E.tasks id ⟨st, t.step⟩, q',
           if (lookupA E.waker_cache id).isSome then E.waker_cache
           else insertA E.waker_cache id (WakerM.taskWaker id)⟩) := by
  cases hq : E.task_queue with
  | nil => simp only [drainStep, hq] at h; simp at h
  | cons id0 rest =>
    simp only [drainStep, hq] at h
    cases hl : lookupA E.tasks id0 with
    | none => simp only [hl] at h; simp at h
    | some t =>
      simp only [hl] at h
      rcases hp : t.poll ((lookupA E.waker_cache id0).getD (WakerM.taskWaker id0)) with ⟨ready, st, wakes⟩
      simp only [hp] at h
      cases ha : applyWakes rest wakes with
      | none => simp only [ha] at h; simp at h
      | some q' =>
        simp only [ha] at h
        injection h with h1 h2
        subst h2
        exact ⟨rest, t, ready, st, wakes, q', rfl, hl, hp, ha, h1.symm⟩

theorem drainStep_polled_queue (E E1 : EState) (id : Nat)
    (h : drainStep E = .polled E1 id) :
    ∃ rest, E.task_queue = id :: rest ∧ ∀ x ∈ rest, x ∈ E1.task_queue := by
  obtain ⟨rest, t, ready, st, wakes, q', hq, hl, hp, ha, hE1⟩ :=
    drainStep_polled_shape E E1 id h
  refine ⟨rest, hq, ?_⟩
  intro x hx
  have hq' : E1.task_queue = q' := by
    rw [hE1]; cases ready <;> simp
  rw [hq']
  exact applyWakes_mem wakes rest q' ha x hx

theorem drainStep_polled_live (E E1 : EState) (id : Nat)
    (h : drainStep E = .polled E1 id) : (lookupA E.tasks id).isSome := by
  obtain ⟨rest, t, ready, st, wakes, q', hq, hl, hp, ha, hE1⟩ :=
    drainStep_polled_shape E E1 id h
  rw [hl]
  rfl

theorem drainStep_polled_lookup (E E1 : EState) (id : Nat)
    (h : drainStep E = .polled E1 id) (j : Nat) (hne : j ≠ id) :
    lookupA E1.tasks j = lookupA E.tasks j := by
  obtain ⟨rest, t, ready, st, wakes, q', hq, hl, hp, ha, hE1⟩ :=
    drainStep_polled_shape E E1 id h
  rw [hE1]
  cases ready with
  | true =>
    simp only [if_true]
    exact lookupA_eraseA_of_ne E.tasks id j hne
  | false =>
    simp only [Bool.false_eq_true, if_false]
    show lookupA (insertA E.tasks id ⟨st, t.step⟩) j = lookupA E.tasks j
    rw [lookupA_insertA]
    exact if_neg (fun hh => hne hh.symm)

theorem drainStep_polled_cacheInv (E E1 : EState) (id : Nat)
    (h : drainStep E = .polled E1 id) (hinv : cacheInv E) : cacheInv E1 := by
  obtain ⟨rest, t, ready, st, wakes, q', hq, hl, hp, ha, hE1⟩ :=
    drainStep_polled_shape E E1 id h
  obtain ⟨hT, hC, hsub⟩ := hinv
  have hCnodup :
      (keysA (if (lookupA E.waker_cache id).isSome then E.waker_cache
              else insertA E.waker_cache id (WakerM.taskWaker id))).Nodup := by
    by_cases hpres : (lookupA E.waker_cache id).isSome
    · simpa [hpres] using hC
    · simp only [hpres, if_false]
      exact nodup_keysA_insertA E.waker_cache id (WakerM.taskWaker id) hC
  have hCsub : ∀ j,
      j ∈ keysA (if (lookupA E.waker_cache id).isSome then E.waker_cache
                 else insertA E.waker_cache id (WakerM.taskWaker id)) →
      j ∈ keysA E.tasks ∨ j = id := by
    intro j hj
    by_cases hpres : (lookupA E.waker_cache id).isSome
    · rw [if_pos hpres] at hj
      exact Or.inl (hsub j hj)
    · rw [if_neg hpres] at hj
      rcases (mem_keysA_insertA E.waker_cache id j (WakerM.taskWaker id)).mp hj with h1 | h1
      · exact Or.inl (hsub j h1)
      · exact Or.inr h1
  rw [hE1]
  cases ready with
  | true =>
    simp only [if_true]
    refine ⟨nodup_keysA_eraseA E.tasks id hT, nodup_keysA_eraseA _ id hCnodup, ?_⟩
    intro j hj
    obtain ⟨hjC, hjne⟩ := (mem_keysA_eraseA _ id j hCnodup).mp hj
    rcases hCsub j hjC with h1 | h1
    · exact (mem_keysA_eraseA E.tasks id j hT).mpr ⟨h1, hjne⟩
    · exact absurd h1 hjne
  | false =>
    simp only [Bool.false_eq_true, if_false]
    refine ⟨nodup_keysA_insertA E.tasks id ⟨st, t.step⟩ hT, hCnodup, ?_⟩
    intro j hj
    rcases hCsub j hj with h1 | h1
    · exact (mem_keysA_insertA E.tasks id j ⟨st, t.step⟩).mpr (Or.inl h1)
    · exact (mem_keysA_insertA E.tasks id j ⟨st, t.step⟩).mpr (Or.inr h1)

theorem drainStep_polled_sync (E E1 : EState) (id : Nat)
    (h : drainStep E = .polled E1 id) (hinv : cacheInv E) :
    ((lookupA E1.tasks id).isSome ↔ (lookupA E1.waker_cache id).isSome) := by
  obtain ⟨rest, t, ready, st, wakes, q', hq, hl, hp, ha, hE1⟩ :=
    drainStep_polled_shape E E1 id h
  obtain ⟨hT, hC, hsub⟩ := hinv
  have hCnodup :
      (keysA (if (lookupA E.waker_cache id).isSome then E.waker_cache
              else insertA E.waker_cache id (WakerM.taskWaker id))).Nodup := by
    by_cases hpres : (lookupA E.waker_cache id).isSome
    · simpa [hpres] using hC
    · simp only [hpres, if_false]
      exact nodup_keysA_insertA E.waker_cache id (WakerM.taskWaker id) hC
  rw [hE1]
  cases ready with
  | true =>
    simp only [if_true]
    constructor
    · intro hcon
      exfalso
      have := (lookupA_isSome_iff (eraseA E.tasks id) id).mp hcon
      exact ((mem_keysA_eraseA E.tasks id id hT).mp this).2 rfl
    · intro hcon
      exfalso
      have := (lookupA_isSome_iff _ id).mp hcon
      exact ((mem_keysA_eraseA _ id id hCnodup).mp this).2 rfl
  | false =>
    simp only [Bool.false_eq_true, if_false]
    constructor
    · intro _
      by_cases hpres : (lookupA E.waker_cache id).isSome
      · simp [hpres]
      · rw [if_neg hpres, lookupA_insertA, if_pos rfl]
        rfl
    · intro _
      show (lookupA (insertA E.tasks id ⟨st, t.step⟩) id).isSome
      rw [lookupA_insertA, if_pos rfl]
      rfl

/-! Claim theorems. -/

/-- C1: for every state of the scancode queue and every polling context,
poll_next first attempts a dequeue and, when a byte is available,
returns it Ready without registering or touching the pending waker; only
when that first dequeue fails does it register the context waker as the
single pending waker and attempt one second dequeue, returning Ready
with the byte and taking the pending waker when the second dequeue
succeeds (a producer having pushed after registration), and returning
Pending with the context waker left registered otherwise, with no
further retry. -/
theorem C1_poll_next_protocol (q : List Nat) (w : Option Nat) (cw : Nat)
    (mid : List Nat) :
    (∀ b q', q = b :: q' →
      poll_next ⟨some q, w⟩ cw mid = some (.ready b, ⟨some q', w⟩)) ∧
    (q = [] →
      (∀ b rest2,
        (interfere ⟨some [], some cw⟩ mid).queue = some (b :: rest2) →
        poll_next ⟨some q, w⟩ cw mid = some (.ready b, ⟨some rest2, none⟩)) ∧
      ((interfere ⟨some [], some cw⟩ mid).queue = some [] →
        mid = [] ∧
        poll_next ⟨some q, w⟩ cw mid = some (.pending, ⟨some [], some cw⟩))) := by
  refine ⟨?_, ?_⟩
  · rintro b q' rfl
    rfl
  · rintro rfl
    refine ⟨?_, ?_⟩
    · intro b rest2 h
      show (match (interfere ⟨some [], some cw⟩ mid).queue with
            | some (b :: rest) => some (PollRes.ready b, (⟨some rest, none⟩ : KState))
            | _ => some (PollRes.pending, interfere ⟨some [], some cw⟩ mid)) =
          some (.ready b, ⟨some rest2, none⟩)
      rw [h]
    · intro h
      have hmid := interfere_of_empty_eq_nil (some cw) mid h
      subst hmid
      exact ⟨rfl, rfl⟩

/-- Witness for C1: a one-byte backlog is returned on the fast path with
the pending waker untouched. -/
theorem C1_poll_next_protocol_witness :
    ([5] : List Nat) = 5 :: [] ∧
    poll_next ⟨some [5], none⟩ 7 [] = some (.ready 5, ⟨some [], none⟩) :=
  ⟨rfl, (C1_poll_next_protocol [5] none 7 []).1 5 [] rfl⟩

/-- C3: add_scancode never fails its caller: with the queue initialised
and below capacity the byte is appended and the registered waker (if
any) fired; with the queue full the byte is dropped, a diagnostic is
emitted, the state is unchanged and no waker fires; uninitialised, the
byte is dropped with a diagnostic and no waker fires. -/
theorem C3_add_scancode_total (s : KState) (b : Nat) :
    (∀ q, s.queue = some q → q.length < scancodeQueueCapacity →
      add_scancode s b = ⟨⟨some (q ++ [b]), none⟩, none, s.waker⟩) ∧
    (∀ q, s.queue = some q → ¬ q.length < scancodeQueueCapacity →
      add_scancode s b = ⟨s, some .queueFull, none⟩) ∧
    (s.queue = none → add_scancode s b = ⟨s, some .uninit, none⟩) := by
  refine ⟨?_, ?_, ?_⟩
  · intro q h hlen
    simp [add_scancode, h, aqPush, hlen]
  · intro q h hlen
    simp [add_scancode, h, aqPush, hlen]
  · intro h
    simp [add_scancode, h]

/-- Witness for C3: a successful push appends the byte and fires the
registered waker. -/
theorem C3_add_scancode_total_witness :
    ((⟨some [4], some 3⟩ : KState).queue = some [4] ∧
      ([4] : List Nat).length < scancodeQueueCapacity) ∧
    add_scancode ⟨some [4], some 3⟩ 9 = ⟨⟨some [4, 9], none⟩, none, some 3⟩ :=
  ⟨⟨rfl, by decide⟩,
   (C3_add_scancode_total ⟨some [4], some 3⟩ 9).1 [4] rfl (by decide)⟩

/-- C9: the byte-queue initialisation succeeds exactly on the first
invocation: from the uninitialised state ScancodeStream::new succeeds,
every further new on the resulting state aborts, and polling the stream
before initialisation aborts; new on any initialised state aborts. -/
theorem C9_init_once (s : KState) :
    (s.queue = none →
      ScancodeStream.new s = some ⟨some [], s.waker⟩ ∧
      (∀ s', ScancodeStream.new s = some s' → ScancodeStream.new s' = none) ∧
      (∀ cw mid, poll_next s cw mid = none)) ∧
    (∀ q, s.queue = some q → ScancodeStream.new s = none) := by
  refine ⟨?_, ?_⟩
  · intro h
    refine ⟨by simp [ScancodeStream.new, h], ?_, ?_⟩
    · intro s' hs'
      simp only [ScancodeStream.new, h] at hs'
      injection hs' with hs'
      rw [← hs']
      rfl
    · intro cw mid
      simp [poll_next, h]
  · intro q h
    simp [ScancodeStream.new, h]

/-- Witness for C9: the first initialisation from the virgin state
succeeds. -/
theorem C9_init_once_witness :
    (⟨none, none⟩ : KState).queue = none ∧
    ScancodeStream.new ⟨none, none⟩ = some ⟨some [], none⟩ :=
  ⟨rfl, ((C9_init_once ⟨none, none⟩).1 rfl).1⟩

/-- C10: both bounded queues are built with capacity exactly 100: a push
on either succeeds precisely while the queue holds fewer than 100
elements, so the fatal ready-queue overflow and the byte drop trigger
exactly when a 101st element would be enqueued, and no successful push
grows either queue beyond 100 elements. -/
theorem C10_capacities :
    scancodeQueueCapacity = 100 ∧ readyQueueCapacity = 100 ∧
    (∀ q b, (∃ q', aqPush scancodeQueueCapacity q b = some q') ↔
      q.length < 100) ∧
    (∀ q id, (∃ q', wake_task q id = some q') ↔ q.length < 100) ∧
    (∀ q b q', aqPush scancodeQueueCapacity q b = some q' →
      q'.length ≤ 100) ∧
    (∀ q id q', wake_task q id = some q' → q'.length ≤ 100) := by
  refine ⟨rfl, rfl, ?_, ?_, ?_, ?_⟩
  · intro q b
    exact aqPush_eq_some_iff scancodeQueueCapacity q b
  · intro q id
    exact aqPush_eq_some_iff readyQueueCapacity q id
  · intro q b q' h
    have hlen : q.length < scancodeQueueCapacity :=
      (aqPush_eq_some_iff scancodeQueueCapacity q b).mp ⟨q', h⟩
    have hsh := aqPush_some_shape scancodeQueueCapacity q b q' h
    rw [hsh]
    simp only [scancodeQueueCapacity] at hlen
    simp
    omega
  · intro q id q' h
    have hlen : q.length < readyQueueCapacity :=
      (aqPush_eq_some_iff readyQueueCapacity q id).mp ⟨q', h⟩
    have hsh := aqPush_some_shape readyQueueCapacity q id q' h
    rw [hsh]
    simp only [readyQueueCapacity] at hlen
    simp
    omega

/-- Witness for C10: a push on a singleton queue stays within the
100-element bound. -/
theorem C10_capacities_witness :
    wake_task [3] 4 = some [3, 4] ∧ ([3, 4] : List Nat).length ≤ 100 :=
  ⟨rfl, C10_capacities.2.2.2.2.2 [3] 4 [3, 4] rfl⟩

/-- C4: Executor::spawn registers the task in the task map and then
pushes its id onto the ready queue; it aborts exactly when the id is
already bound in the map or the ready queue is at capacity, and
otherwise succeeds with the task inserted and the id appended. -/
theorem C4_spawn_spec (E : EState) (id : Nat) (t : TaskM) :
    (Executor.spawn E id t = none ↔
      id ∈ keysA E.tasks ∨ ¬ E.task_queue.length < readyQueueCapacity) ∧
    (id ∉ keysA E.tasks → E.task_queue.length < readyQueueCapacity →
      Executor.spawn E id t =
        some ⟨insertA E.tasks id t, E.task_queue ++ [id], E.waker_cache⟩) := by
  constructor
  · by_cases hdup : (lookupA E.tasks id).isSome
    · have hmem := (lookupA_isSome_iff E.tasks id).mp hdup
      simp [Executor.spawn, hdup, hmem]
    · have hmem : id ∉ keysA E.tasks :=
        fun hc => hdup ((lookupA_isSome_iff E.tasks id).mpr hc)
      by_cases hlen : E.task_queue.length < readyQueueCapacity
      · simp [Executor.spawn, hdup, aqPush, hlen, hmem]
      · simp [Executor.spawn, hdup, aqPush, hlen]
  · intro hmem hlen
    have hdup : ¬ (lookupA E.tasks id).isSome :=
      fun hc => hmem ((lookupA_isSome_iff E.tasks id).mp hc)
    simp [Executor.spawn, hdup, aqPush, hlen]

/-- Witness for C4: spawning into a fresh executor succeeds. -/
theorem C4_spawn_spec_witness :
    (1 ∉ keysA Executor.new.tasks ∧
      Executor.new.task_queue.length < readyQueueCapacity) ∧
    Executor.spawn Executor.new 1 sampleTask =
      some ⟨insertA Executor.new.tasks 1 sampleTask,
            Executor.new.task_queue ++ [1], Executor.new.waker_cache⟩ :=
  ⟨⟨by simp [Executor.new, keysA_nil], by decide⟩,
   (C4_spawn_spec Executor.new 1 sampleTask).2
     (by simp [Executor.new, keysA_nil]) (by decide)⟩

/-- C6: a ready id with no live task is skipped: the loop body leaves
the task map and waker cache unchanged, polls nothing, and the drain
continues with the remaining ready ids (the id is recorded as popped but
never as polled). -/
theorem C6_stale_wake_skip (fuel : Nat) (E : EState) (id : Nat)
    (rest : List Nat) (hq : E.task_queue = id :: rest)
    (hdead : lookupA E.tasks id = none) :
    drainStep E = .skip ⟨E.tasks, rest, E.waker_cache⟩ id ∧
    run_ready_tasks (fuel + 1) E =
      (match run_ready_tasks fuel ⟨E.tasks, rest, E.waker_cache⟩ with
       | .done E' pop pol => .done E' (id :: pop) pol
       | r => r) := by
  have hstep : drainStep E = .skip ⟨E.tasks, rest, E.waker_cache⟩ id := by
    simp only [drainStep, hq, hdead]
  refine ⟨hstep, ?_⟩
  simp only [run_ready_tasks, hstep]

/-- Witness for C6: a stale wake for the completed task 7 is skipped and
the drain finishes with everything unchanged. -/
theorem C6_stale_wake_skip_witness :
    ((⟨[], [7], []⟩ : EState).task_queue = 7 :: [] ∧
      lookupA (⟨[], [7], []⟩ : EState).tasks 7 = none) ∧
    (drainStep ⟨[], [7], []⟩ = .skip ⟨[], [], []⟩ 7 ∧
      run_ready_tasks 2 ⟨[], [7], []⟩ =
        (match run_ready_tasks 1 ⟨[], [], []⟩ with
         | .done E' pop pol => .done E' (7 :: pop) pol
         | r => r)) :=
  ⟨⟨rfl, rfl⟩, C6_stale_wake_skip 1 ⟨[], [7], []⟩ 7 [] rfl rfl⟩

/-- C7: wake and wake_by_ref have the identical effect: each pushes the
bound TaskId onto the shared ready queue, succeeding while the queue has
space and aborting when it is full. -/
theorem C7_wake_eq_wake_by_ref (q : List Nat) (id : Nat) :
    TaskWaker.wake q id = TaskWaker.wakeByRef q id ∧
    (q.length < readyQueueCapacity →
      TaskWaker.wake q id = some (q ++ [id]) ∧
      TaskWaker.wakeByRef q id = some (q ++ [id])) ∧
    (¬ q.length < readyQueueCapacity →
      TaskWaker.wake q id = none ∧ TaskWaker.wakeByRef q id = none) := by
  refine ⟨rfl, ?_, ?_⟩ <;> intro h <;>
    exact ⟨by simp [TaskWaker.wake, wake_task, aqPush, h],
           by simp [TaskWaker.wakeByRef, wake_task, aqPush, h]⟩

/-- Witness for C7: waking task 2 on an empty ready queue enqueues it
through both entry points. -/
theorem C7_wake_eq_wake_by_ref_witness :
    ([] : List Nat).length < readyQueueCapacity ∧
    TaskWaker.wake [] 2 = some [2] ∧ TaskWaker.wakeByRef [] 2 = some [2] :=
  ⟨by decide, (C7_wake_eq_wake_by_ref [] 2).2.1 (by decide)⟩

/-- C8: SimpleExecutor::run pops the head task of the FIFO queue, polls
it with the inert dummy waker (null data pointer, no-op wake), drops it
when complete and re-enqueues it at the tail when suspended, and the
loop ends exactly when the queue is empty. -/
theorem C8_simple_run_fifo :
    (∀ fuel, SimpleExecutor.run (fuel + 1) [] = some []) ∧
    (∀ fuel t rest, SimpleExecutor.run (fuel + 1) (t :: rest) =
      (match t.poll .dummy with
       | (ready, st, _) =>
         if ready then SimpleExecutor.run fuel rest
         else SimpleExecutor.run fuel (rest ++ [⟨st, t.step⟩]))) ∧
    (∀ fuel ts ts', SimpleExecutor.run fuel ts = some ts' → ts' = []) ∧
    (∀ q, wakeEffect .dummy q = some q) ∧
    dummyRawWakerData = 0 := by
  refine ⟨fun fuel => rfl, fun fuel t rest => rfl, ?_, fun q => rfl, rfl⟩
  intro fuel
  induction fuel with
  | zero =>
    intro ts ts' h
    simp [SimpleExecutor.run] at h
  | succ fuel ih =>
    intro ts ts' h
    cases ts with
    | nil =>
      simp only [SimpleExecutor.run] at h
      injection h with h
      exact h.symm
    | cons t rest =>
      simp only [SimpleExecutor.run] at h
      rcases hp : t.poll .dummy with ⟨ready, st, wakes⟩
      simp only [hp] at h
      cases ready with
      | true => exact ih rest ts' (by simpa using h)
      | false => exact ih (rest ++ [⟨st, t.step⟩]) ts' (by simpa using h)

/-- Witness for C8: with no tasks the loop ends at once with an empty
queue. -/
theorem C8_simple_run_fifo_witness :
    SimpleExecutor.run 1 ([] : List TaskM) = some [] ∧
    ([] : List TaskM) = [] :=
  ⟨rfl, C8_simple_run_fifo.2.2.1 1 [] [] rfl⟩

/-- C2: no lost wakeups in the drain loop: when a pass of
run_ready_tasks completes, the ready queue has been fully drained, every
id that was in the ready queue at entry (and, by instantiating the
theorem at intermediate states, every id pushed by a wake during the
pass) has been popped, and every such id whose task was live at entry
has been polled during the pass. -/
theorem C2_no_lost_wakeups (fuel : Nat) (E E' : EState)
    (popped polled : List Nat)
    (hrun : run_ready_tasks fuel E = .done E' popped polled) :
    E'.task_queue = [] ∧
    (∀ id ∈ E.task_queue, id ∈ popped) ∧
    (∀ id ∈ E.task_queue, (lookupA E.tasks id).isSome → id ∈ polled) := by
  induction fuel generalizing E E' popped polled with
  | zero => simp [run_ready_tasks] at hrun
  | succ fuel ih =>
    simp only [run_ready_tasks] at hrun
    cases hstep : drainStep E with
    | empty =>
      simp only [hstep] at hrun
      injection hrun with h1 h2 h3
      subst h1
      subst h2
      subst h3
      have hq := (drainStep_empty_iff E).mp hstep
      exact ⟨hq, by simp [hq], by simp [hq]⟩
    | aborted => simp only [hstep] at hrun; simp at hrun
    | skip E1 id =>
      simp only [hstep] at hrun
      cases hrec : run_ready_tasks fuel E1 with
      | fuelOut => simp only [hrec] at hrun; simp at hrun
      | aborted => simp only [hrec] at hrun; simp at hrun
      | done E2 pop2 pol2 =>
        simp only [hrec] at hrun
        injection hrun with h1 h2 h3
        subst h1
        subst h2
        subst h3
        obtain ⟨hq, htasks, hcache, hdead⟩ := drainStep_skip_spec E E1 id hstep
        obtain ⟨c1, c2, c3⟩ := ih E1 E2 pop2 pol2 hrec
        refine ⟨c1, ?_, ?_⟩
        · intro j hj
          rw [hq] at hj
          rcases List.mem_cons.mp hj with h | h
          · exact h ▸ List.mem_cons_self _ _
          · exact List.mem_cons_of_mem _ (c2 j h)
        · intro j hj hlive
          rw [hq] at hj
          rcases List.mem_cons.mp hj with h | h
          · subst h
            rw [hdead] at hlive
            simp at hlive
          · refine c3 j h ?_
            rw [htasks]
            exact hlive
    | polled E1 id =>
      simp only [hstep] at hrun
      cases hrec : run_ready_tasks fuel E1 with
      | fuelOut => simp only [hrec] at hrun; simp at hrun
      | aborted => simp only [hrec] at hrun; simp at hrun
      | done E2 pop2 pol2 =>
        simp only [hrec] at hrun
        injection hrun with h1 h2 h3
        subst h1
        subst h2
        subst h3
        obtain ⟨rest, hq, hsub⟩ := drainStep_polled_queue E E1 id hstep
        obtain ⟨c1, c2, c3⟩ := ih E1 E2 pop2 pol2 hrec
        refine ⟨c1, ?_, ?_⟩
        · intro j hj
          rw [hq] at hj
          rcases List.mem_cons.mp hj with h | h
          · exact h ▸ List.mem_cons_self _ _
          · exact List.mem_cons_of_mem _ (c2 j (hsub j h))
        · intro j hj hlive
          rw [hq] at hj
          rcases List.mem_cons.mp hj with h | h
          · exact h ▸ List.mem_cons_self _ _
          · by_cases hji : j = id
            · exact hji ▸ List.mem_cons_self _ _
            · have hlive1 : (lookupA E1.tasks j).isSome := by
                rw [drainStep_polled_lookup E E1 id hstep j hji]
                exact hlive
              exact List.mem_cons_of_mem _ (c3 j (hsub j h) hlive1)

/-- Witness for C2: a drain of one ready live task pops and polls it and
ends with an empty ready queue. -/
theorem C2_no_lost_wakeups_witness :
    run_ready_tasks 2 sampleE = .done ⟨[], [], []⟩ [1] [1] ∧
    ((⟨[], [], []⟩ : EState).task_queue = [] ∧
      (∀ id ∈ sampleE.task_queue, id ∈ [1]) ∧
      (∀ id ∈ sampleE.task_queue, (lookupA sampleE.tasks id).isSome →
        id ∈ [1])) :=
  ⟨rfl, C2_no_lost_wakeups 2 sampleE ⟨[], [], []⟩ [1] [1] rfl⟩

/-- A completed pass of the drain loop preserves the waker-cache
invariant. -/
theorem drain_preserves_cacheInv (fuel : Nat) : ∀ E E' pop pol,
    cacheInv E → run_ready_tasks fuel E = .done E' pop pol →
    cacheInv E' := by
  induction fuel with
  | zero =>
    intro E E' pop pol h hrun
    simp [run_ready_tasks] at hrun
  | succ fuel ih =>
    intro E E' pop pol h hrun
    simp only [run_ready_tasks] at hrun
    cases hstep : drainStep E with
    | empty =>
      simp only [hstep] at hrun
      injection hrun with h1 h2 h3
      subst h1
      exact h
    | aborted => simp only [hstep] at hrun; simp at hrun
    | skip E1 id =>
      simp only [hstep] at hrun
      cases hrec : run_ready_tasks fuel E1 with
      | fuelOut => simp only [hrec] at hrun; simp at hrun
      | aborted => simp only [hrec] at hrun; simp at hrun
      | done E2 pop2 pol2 =>
        simp only [hrec] at hrun
        injection hrun with h1 h2 h3
        subst h1
        obtain ⟨hq, htasks, hcache, hdead⟩ := drainStep_skip_spec E E1 id hstep
        refine ih E1 E2 pop2 pol2 ?_ hrec
        obtain ⟨hT, hC, hsub⟩ := h
        refine ⟨by rw [htasks]; exact hT, by rw [hcache]; exact hC, ?_⟩
        intro j hj
        rw [htasks]
        refine hsub j ?_
        rw [← hcache]
        exact hj
    | polled E1 id =>
      simp only [hstep] at hrun
      cases hrec : run_ready_tasks fuel E1 with
      | fuelOut => simp only [hrec] at hrun; simp at hrun
      | aborted => simp only [hrec] at hrun; simp at hrun
      | done E2 pop2 pol2 =>
        simp only [hrec] at hrun
        injection hrun with h1 h2 h3
        subst h1
        exact ih E1 E2 pop2 pol2
          (drainStep_polled_cacheInv E E1 id hstep h) hrec

/-- C5: the waker cache holds at most one entry per task and only for
live ids: from any state satisfying the invariant, a successful spawn
preserves it, a completed pass of run_ready_tasks preserves it, and
after a polled loop-body iteration the popped id sits in the cache
exactly when its task is still live (created lazily on first poll,
removed together with the task on completion). -/
theorem C5_waker_cache_invariant (E : EState) (h : cacheInv E) :
    (∀ id t E', Executor.spawn E id t = some E' → cacheInv E') ∧
    (∀ fuel E' pop pol, run_ready_tasks fuel E = .done E' pop pol →
      cacheInv E') ∧
    (∀ E1 id, drainStep E = .polled E1 id →
      ((lookupA E1.tasks id).isSome ↔ (lookupA E1.waker_cache id).isSome)) := by
  refine ⟨?_, ?_, ?_⟩
  · intro id t E' hs
    by_cases hdup : (lookupA E.tasks id).isSome
    · simp [Executor.spawn, hdup] at hs
    · by_cases hlen : E.task_queue.length < readyQueueCapacity
      · simp [Executor.spawn, hdup, aqPush, hlen] at hs
        subst hs
        obtain ⟨hT, hC, hsub⟩ := h
        refine ⟨nodup_keysA_insertA E.tasks id t hT, hC, ?_⟩
        intro j hj
        exact (mem_keysA_insertA E.tasks id j t).mpr (Or.inl (hsub j hj))
      · simp [Executor.spawn, hdup, aqPush, hlen] at hs
  · intro fuel E' pop pol hrun
    exact drain_preserves_cacheInv fuel E E' pop pol h hrun
  · intro E1 id hstep
    exact drainStep_polled_sync E E1 id hstep h

/-- Witness for C5: running a pass over the fresh executor keeps the
invariant. -/
theorem C5_waker_cache_invariant_witness :
    cacheInv Executor.new ∧
    (∀ fuel E' pop pol,
      run_ready_tasks fuel Executor.new = .done E' pop pol → cacheInv E') :=
  ⟨⟨List.nodup_nil, List.nodup_nil, fun id hid => absurd hid (List.not_mem_nil id)⟩,
   (C5_waker_cache_invariant Executor.new
     ⟨List.nodup_nil, List.nodup_nil,
      fun id hid => absurd hid (List.not_mem_nil id)⟩).2.1⟩
